import Mathlib

/-!
Verification of the dynamic-array container in `src/vector.h`.

The embedding models raw storage (`RawMemory`) as a list of slots, each either
unconstructed (`none`) or holding a constructed value (`some x`), and the
container (`Vector`) as a raw block plus a live-element count `size_`, exactly
as in the source.  The net effect of the standard algorithms used by the code
(`std::uninitialized_copy_n` / `uninitialized_move_n`, `std::move`,
`std::move_backward`, `std::destroy_n`, `std::uninitialized_value_construct_n`)
is modelled by explicit slot-block operations.  Fallible element construction
(a copy constructor that may throw) is modelled by a predicate on values; an
operation that lets an exception escape is modelled as returning an error,
while the exception-swallowing catch blocks of `Vector::Insert` are modelled
faithfully as continuing normally.
-/

namespace VectorSpec

/-- Raw memory block of `src/vector.h`: a fixed run of slots, each either
unconstructed (`none`) or holding a constructed element. -/
structure RawMemory (α : Type) where
  slots : List (Option α)
deriving DecidableEq

variable {α : Type}

/-- Capacity of a raw block: the number of slots. -/
def RawMemory.capacity (m : RawMemory α) : Nat := m.slots.length

/-- RawMemory::Allocate - a fresh block of n unconstructed slots. -/
def RawMemory.allocate (α : Type) (n : Nat) : RawMemory α :=
  ⟨List.replicate n none⟩

/-- The Vector of `src/vector.h`: a raw block plus the live-element count. -/
structure Vector (α : Type) where
  data_ : RawMemory α
  size_ : Nat
deriving DecidableEq

/-- Vector::Capacity. -/
def Vector.Capacity (v : Vector α) : Nat := v.data_.capacity

/-- Vector::Size. -/
def Vector.Size (v : Vector α) : Nat := v.size_

/-- The default-constructed Vector: no block, size 0. -/
def Vector.empty : Vector α := ⟨⟨[]⟩, 0⟩

/-- Observable live content: the constructed values in slots `[0, size_)`. -/
def Vector.elems (v : Vector α) : List α :=
  (v.data_.slots.take v.size_).filterMap id

/-- Well-formedness invariant of the container: the slots are exactly the
`size_` live values (in order) followed by unconstructed slots. -/
def Vector.WF (v : Vector α) : Prop :=
  ∃ (l : List α) (k : Nat),
    v.data_.slots = l.map some ++ List.replicate k none ∧ v.size_ = l.length

/-- Size of the replacement block in every growth path of the source:
the expression `(size_ == 0) ? 1 : Capacity() * 2`. -/
def growCapacity (size cap : Nat) : Nat := if size = 0 then 1 else cap * 2

/-- Net effect of `std::uninitialized_copy_n` / `std::uninitialized_move_n`
(and block-wise `std::move` / `std::move_backward`): `cnt` slots of `src`
starting at `srcOff` are written into `dst` starting at `dstOff`. -/
def copySlots (src : List (Option α)) (srcOff cnt : Nat)
    (dst : List (Option α)) (dstOff : Nat) : List (Option α) :=
  dst.take dstOff ++ (src.drop srcOff).take cnt ++ dst.drop (dstOff + cnt)

/-- Writing a constant run of `cnt` slots starting at `off`: with `none` this
is `std::destroy_n`, with `some x` it is value-construction of a run. -/
def fillSlots (xs : List (Option α)) (off cnt : Nat) (v : Option α) :
    List (Option α) :=
  xs.take off ++ List.replicate cnt v ++ xs.drop (off + cnt)

/-- Vector::PushBack (success path; both the copy and the move relocation
branch have this same net effect on values). -/
def Vector.PushBack (v : Vector α) (value : α) : Vector α :=
  if v.size_ = v.Capacity then
    let nd := RawMemory.allocate α (growCapacity v.size_ v.Capacity)
    let nd : RawMemory α := ⟨nd.slots.set v.size_ (some value)⟩
    let nd : RawMemory α := ⟨copySlots v.data_.slots 0 v.size_ nd.slots 0⟩
    { data_ := nd, size_ := v.size_ + 1 }
  else
    { data_ := ⟨v.data_.slots.set v.size_ (some value)⟩, size_ := v.size_ + 1 }

/-- A run of PushBack calls. -/
def Vector.pushMany (v : Vector α) (xs : List α) : Vector α :=
  xs.foldl Vector.PushBack v

/-- Vector::Insert at index p (success path).  `p = size_` is the
`pos == end()` case and appends via PushBack, returning `end() - 1`, i.e.
index `size_`.  A full block takes the reallocating branch: the new value is
constructed at offset p of the new block, then the prefix `[0, p)` and the
suffix `[p, size_)` are relocated around it.  Otherwise a hole is opened by
move-constructing the last element into slot `size_`, shifting `[p, size_-1)`
one slot right with `std::move_backward`, and move-assigning the value into
slot p.  Returns the new state and the index of the returned iterator. -/
def Vector.Insert (v : Vector α) (p : Nat) (value : α) : Vector α × Nat :=
  if p = v.size_ then
    (v.PushBack value, v.size_)
  else if v.size_ = v.Capacity then
    let nd := RawMemory.allocate α (growCapacity v.size_ v.Capacity)
    let nd : RawMemory α := ⟨nd.slots.set p (some value)⟩
    let nd : RawMemory α := ⟨copySlots v.data_.slots 0 p nd.slots 0⟩
    let nd : RawMemory α := ⟨copySlots v.data_.slots p (v.size_ - p) nd.slots (p + 1)⟩
    (⟨nd, v.size_ + 1⟩, p)
  else
    let s1 := v.data_.slots.set v.size_ (v.data_.slots.getD (v.size_ - 1) none)
    let s2 := copySlots s1 p (v.size_ - 1 - p) s1 (p + 1)
    let s3 := s2.set p (some value)
    (⟨⟨s3⟩, v.size_ + 1⟩, p)

/-- Vector::Erase at index p: `std::move` shifts `(p, size_)` one slot left,
the vacated last slot is destroyed, size is decremented; the returned
iterator is `begin() + p`. -/
def Vector.Erase (v : Vector α) (p : Nat) : Vector α × Nat :=
  let s1 := copySlots v.data_.slots (p + 1) (v.size_ - (p + 1)) v.data_.slots p
  let s2 := s1.set (v.size_ - 1) none
  (⟨⟨s2⟩, v.size_ - 1⟩, p)

/-- Vector move constructor of `src/vector.h`: the member initializer
`data_(other.size_)` allocates a fresh raw block of `other.size_` slots and
`size_(other.size_)` copies the count; the body then swaps blocks with the
source and zeroes the source's size.  Result: (new vector, moved-from
source). -/
def Vector.moveCtor (other : Vector α) : Vector α × Vector α :=
  (⟨other.data_, other.size_⟩, ⟨RawMemory.allocate α other.size_, 0⟩)

/-- Vector move assignment `t = std::move(s)` of `src/vector.h`: swaps the
raw blocks (`data_.Swap(rhs.data_)`) and sets `rhs.size_ = 0`; the target's
own `size_` is not touched.  Result: (new target, new source). -/
def Vector.moveAssign (t s : Vector α) : Vector α × Vector α :=
  (⟨s.data_, t.size_⟩, ⟨t.data_, 0⟩)

/-- Vector::Swap: swaps blocks and sizes. -/
def Vector.SwapV (t s : Vector α) : Vector α × Vector α :=
  (⟨s.data_, s.size_⟩, ⟨t.data_, t.size_⟩)

/-- Vector::PopBack: destroys the last element and decrements size. -/
def Vector.PopBack (v : Vector α) : Vector α :=
  ⟨⟨v.data_.slots.set (v.size_ - 1) none⟩, v.size_ - 1⟩

/-- Vector::Reserve: no-op when the block is already large enough, else
allocates exactly new_capacity slots, relocates the live elements into it and
releases the old block. -/
def Vector.Reserve (v : Vector α) (newCap : Nat) : Vector α :=
  if newCap ≤ v.Capacity then v
  else
    ⟨⟨copySlots v.data_.slots 0 v.size_ (RawMemory.allocate α newCap).slots 0⟩,
      v.size_⟩

/-- Vector::Resize: growing reserves then value-constructs the run
`[size_, new_size)`; shrinking destroys `[new_size, size_)`; in all cases
`size_` becomes new_size. -/
def Vector.Resize [Inhabited α] (v : Vector α) (newSize : Nat) : Vector α :=
  if v.size_ < newSize then
    ⟨⟨fillSlots (v.Reserve newSize).data_.slots v.size_ (newSize - v.size_)
        (some default)⟩, newSize⟩
  else if newSize < v.size_ then
    ⟨⟨fillSlots v.data_.slots newSize (v.size_ - newSize) none⟩, newSize⟩
  else
    ⟨v.data_, newSize⟩

/-- Whether copying from this slot's value throws; unconstructed slots are
never legally copied from. -/
def slotThrows (fc : α → Bool) (x : Option α) : Bool :=
  match x with
  | some a => fc a
  | none => false

/-- `std::uninitialized_copy_n` with a throwing element copy: if some copied
value trips fc, everything constructed so far is destroyed again and the
exception escapes (destination unchanged); otherwise the run is written. -/
def uninitializedCopyF (fc : α → Bool) (src : List (Option α)) (srcOff cnt : Nat)
    (dst : List (Option α)) (dstOff : Nat) : Except Unit (List (Option α)) :=
  if ((src.drop srcOff).take cnt).any (slotThrows fc) then .error ()
  else .ok (copySlots src srcOff cnt dst dstOff)

/-- The element-wise copy-assign loop `for i < n: dst[i] = src[i]` with a
throwing copy: it stops at the first value tripping fc, leaving the already
assigned prefix written; the Bool is true when an exception escaped. -/
def assignLoop (fc : α → Bool) : List (Option α) → List (Option α) → Nat →
    List (Option α) × Bool
  | dst, _, 0 => (dst, false)
  | dst, [], _ + 1 => (dst, false)
  | [], _, _ + 1 => ([], false)
  | _ :: ds, none :: ss, n + 1 =>
    (none :: (assignLoop fc ds ss n).1, (assignLoop fc ds ss n).2)
  | d :: ds, some a :: ss, n + 1 =>
    if fc a then (d :: ds, true)
    else (some a :: (assignLoop fc ds ss n).1, (assignLoop fc ds ss n).2)

/-- The copy constructor `Vector(const Vector&)` with throwing element
copies: allocates `other.size_` slots and copy-constructs each element; a
throwing copy undoes the construction and the exception escapes. -/
def Vector.copyCtorF (fc : α → Bool) (other : Vector α) : Except Unit (Vector α) :=
  match uninitializedCopyF fc other.data_.slots 0 other.size_
      (RawMemory.allocate α other.size_).slots 0 with
  | .error e => .error e
  | .ok s2 => .ok ⟨⟨s2⟩, other.size_⟩

/-- Copy assignment `operator=(const Vector&)` with throwing element copies,
as in the source: a source bigger than the capacity goes through a full
temporary copy that is swapped in (a throw leaves the target untouched);
otherwise storage is reused - prefix copy-assigned, surplus destroyed or
extra tail copy-constructed.  Result: target state afterwards, and whether an
exception escaped (in which case `size_` was never updated). -/
def Vector.copyAssignF (fc : α → Bool) (t s : Vector α) : Vector α × Bool :=
  if s.size_ > t.Capacity then
    match Vector.copyCtorF fc s with
    | .error _ => (t, true)
    | .ok c => (c, false)
  else
    if s.size_ < t.size_ then
      match assignLoop fc t.data_.slots s.data_.slots s.size_ with
      | (d, true) => (⟨⟨d⟩, t.size_⟩, true)
      | (d, false) =>
        (⟨⟨fillSlots d s.size_ (t.size_ - s.size_) none⟩, s.size_⟩, false)
    else
      match assignLoop fc t.data_.slots s.data_.slots t.size_ with
      | (d, true) => (⟨⟨d⟩, t.size_⟩, true)
      | (d, false) =>
        match uninitializedCopyF fc s.data_.slots t.size_ (s.size_ - t.size_) d
            t.size_ with
        | .error _ => (⟨⟨d⟩, t.size_⟩, true)
        | .ok d2 => (⟨⟨d2⟩, s.size_⟩, false)

/-- The reallocating branch of `Vector::Insert` (`size_ == Capacity()`) with
throwing element copies, exactly as in the source: the new value is
constructed at offset p of the new block (a throw there escapes with the
vector untouched); each relocation is wrapped in a try/catch whose handler
only destroys what was already built in the new block and does NOT rethrow,
so after a relocation failure control falls through: the old elements are
destroyed, the blocks are swapped, the size is incremented and the function
returns normally. -/
def Vector.insertReallocF (fc : α → Bool) (v : Vector α) (p : Nat) (value : α) :
    Except Unit (Vector α × Nat) :=
  if fc value then .error ()
  else
    let nd := (RawMemory.allocate α (growCapacity v.size_ v.Capacity)).slots.set p
      (some value)
    let nd :=
      match uninitializedCopyF fc v.data_.slots 0 p nd 0 with
      | .ok s2 => s2
      | .error _ => nd.set p none
    let nd :=
      match uninitializedCopyF fc v.data_.slots p (v.size_ - p) nd (p + 1) with
      | .ok s2 => s2
      | .error _ => fillSlots nd 0 (p + 1) none
    .ok (⟨⟨nd⟩, v.size_ + 1⟩, p)

theorem growCapacity_self (n : Nat) : growCapacity n n = max 1 (n * 2) := by
  unfold growCapacity
  rcases Nat.eq_zero_or_pos n with h | h
  · subst h; simp
  · rw [if_neg (by omega)]; omega

theorem succ_le_growCapacity (n : Nat) : n + 1 ≤ growCapacity n n := by
  rw [growCapacity_self]; omega

theorem set_replicate_split (n i : Nat) (v w : Option α) (h : i < n) :
    (List.replicate n v).set i w =
      List.replicate i v ++ w :: List.replicate (n - i - 1) v := by
  have hn : List.replicate n v =
      List.replicate i v ++ v :: List.replicate (n - i - 1) v := by
    rw [← List.replicate_succ, List.append_replicate_replicate]
    congr 1
    omega
  rw [hn, List.set_append_right _ _ (by simp), List.length_replicate,
    Nat.sub_self, List.set_cons_zero]

theorem elems_canon (l : List α) (k : Nat) :
    Vector.elems ⟨⟨l.map some ++ List.replicate k none⟩, l.length⟩ = l := by
  unfold Vector.elems
  rw [List.take_left' (by simp), List.filterMap_map]
  simp [Function.comp_def, List.filterMap_some]

theorem capacity_canon (l : List α) (k : Nat) :
    Vector.Capacity ⟨⟨l.map some ++ List.replicate k none⟩, l.length⟩ =
      l.length + k := by
  simp [Vector.Capacity, RawMemory.capacity]

theorem elems_canon' (l : List α) (k n : Nat) (h : n = l.length) :
    Vector.elems ⟨⟨l.map some ++ List.replicate k none⟩, n⟩ = l := by
  subst h; exact elems_canon l k

theorem capacity_canon' (l : List α) (k n : Nat) (h : n = l.length) :
    Vector.Capacity ⟨⟨l.map some ++ List.replicate k none⟩, n⟩ = l.length + k := by
  subst h; exact capacity_canon l k

theorem pushBack_canon_full (l : List α) (x : α) :
    Vector.PushBack ⟨⟨l.map some⟩, l.length⟩ x =
      ⟨⟨(l ++ [x]).map some ++
          List.replicate (growCapacity l.length l.length - (l.length + 1)) none⟩,
        l.length + 1⟩ := by
  have hcap : Vector.Capacity ⟨⟨l.map some⟩, l.length⟩ = l.length := by
    simp [Vector.Capacity, RawMemory.capacity]
  have hlt : l.length < growCapacity l.length l.length :=
    Nat.lt_of_succ_le (succ_le_growCapacity l.length)
  unfold Vector.PushBack
  rw [if_pos (by rw [hcap])]
  simp only [hcap]
  congr 1
  congr 1
  rw [RawMemory.allocate]
  simp only []
  rw [set_replicate_split _ _ _ _ hlt, copySlots]
  simp only [List.take_zero, List.drop_zero, List.nil_append, Nat.zero_add]
  rw [List.take_of_length_le (by simp), List.drop_left' (by simp)]
  simp; omega

theorem pushBack_canon_room (l : List α) (k : Nat) (x : α) :
    Vector.PushBack ⟨⟨l.map some ++ List.replicate (k + 1) none⟩, l.length⟩ x =
      ⟨⟨(l ++ [x]).map some ++ List.replicate k none⟩, l.length + 1⟩ := by
  have hcap : Vector.Capacity ⟨⟨l.map some ++ List.replicate (k + 1) none⟩, l.length⟩ =
      l.length + (k + 1) := by
    simp [Vector.Capacity, RawMemory.capacity]
  unfold Vector.PushBack
  rw [if_neg (by rw [hcap]; show ¬(l.length = l.length + (k + 1)); omega)]
  congr 1
  congr 1
  rw [List.set_append_right _ _ (by simp)]
  simp [List.replicate_succ]

theorem pushBack_spec (v : Vector α) (x : α) (h : v.WF) :
    (v.PushBack x).WF ∧ (v.PushBack x).size_ = v.size_ + 1 ∧
      (v.PushBack x).elems = v.elems ++ [x] ∧
      v.Capacity ≤ (v.PushBack x).Capacity := by
  obtain ⟨⟨s⟩, n⟩ := v
  obtain ⟨l, k, hs, hn⟩ := h
  simp only at hs hn
  subst hs
  subst hn
  cases k with
  | zero =>
    have hz : (List.map some l ++ List.replicate 0 (none : Option α)) = List.map some l := by
      simp
    rw [show (⟨⟨List.map some l ++ List.replicate 0 none⟩, l.length⟩ : Vector α) =
        ⟨⟨List.map some l⟩, l.length⟩ by rw [hz]]
    rw [pushBack_canon_full]
    have h2 : Vector.elems (⟨⟨List.map some l⟩, l.length⟩ : Vector α) = l := by
      rw [← hz]; exact elems_canon l 0
    have h4 : Vector.Capacity (⟨⟨List.map some l⟩, l.length⟩ : Vector α) = l.length := by
      rw [← hz, capacity_canon]; omega
    refine ⟨⟨l ++ [x], _, rfl, by simp⟩, by simp, ?_, ?_⟩
    · rw [elems_canon' (l ++ [x]) _ _ (by simp), h2]
    · rw [capacity_canon' (l ++ [x]) _ _ (by simp), h4]
      have := succ_le_growCapacity l.length
      simp
      omega
  | succ k =>
    rw [pushBack_canon_room]
    refine ⟨⟨l ++ [x], k, rfl, by simp⟩, by simp, ?_, ?_⟩
    · rw [elems_canon' (l ++ [x]) _ _ (by simp), elems_canon]
    · rw [capacity_canon' (l ++ [x]) _ _ (by simp), capacity_canon]
      simp
      omega

theorem pushBack_grow_step (v : Vector α) (x : α) (hw : v.WF)
    (h : v.size_ = v.Capacity) :
    (v.PushBack x).Capacity = max 1 (v.Capacity * 2) := by
  obtain ⟨⟨s⟩, n⟩ := v
  obtain ⟨l, k, hs, hn⟩ := hw
  simp only at hs hn
  subst hs
  subst hn
  have h4 := capacity_canon (α := α) l k
  have hk : k = 0 := by
    rw [h4] at h
    have hss : l.length = l.length + k := h
    omega
  subst hk
  have hz : (List.map some l ++ List.replicate 0 (none : Option α)) = List.map some l := by
    simp
  have hv : (⟨⟨List.map some l ++ List.replicate 0 none⟩, l.length⟩ : Vector α) =
      ⟨⟨List.map some l⟩, l.length⟩ := by rw [hz]
  rw [hv]
  rw [pushBack_canon_full]
  rw [capacity_canon' (l ++ [x]) _ _ (by simp)]
  have h5 : Vector.Capacity (⟨⟨List.map some l⟩, l.length⟩ : Vector α) = l.length := by
    rw [← hz, capacity_canon]; omega
  rw [h5]
  have h6 := succ_le_growCapacity l.length
  rw [growCapacity_self] at h6
  rw [← growCapacity_self]
  have h7 := succ_le_growCapacity l.length
  simp
  omega

theorem pushBack_keep_cap (v : Vector α) (x : α) (h : v.size_ ≠ v.Capacity) :
    (v.PushBack x).Capacity = v.Capacity := by
  unfold Vector.PushBack
  rw [if_neg h]
  simp [Vector.Capacity, RawMemory.capacity]

theorem pushMany_spec (xs : List α) (v : Vector α) (h : v.WF) :
    (v.pushMany xs).WF ∧ (v.pushMany xs).size_ = v.size_ + xs.length ∧
      (v.pushMany xs).elems = v.elems ++ xs := by
  induction xs generalizing v with
  | nil => simpa [Vector.pushMany] using h
  | cons x xs ih =>
    have hstep := pushBack_spec v x h
    have hrec := ih (v.PushBack x) hstep.1
    have hfold : v.pushMany (x :: xs) = (v.PushBack x).pushMany xs := rfl
    refine ⟨hfold ▸ hrec.1, ?_, ?_⟩
    · rw [hfold, hrec.2.1, hstep.2.1]
      simp
      omega
    · rw [hfold, hrec.2.2, hstep.2.2.1]
      simp

theorem wf_empty : (Vector.empty : Vector α).WF := ⟨[], 0, rfl, rfl⟩

/-- C6: a run of N PushBack calls from any well-formed state adds exactly N
elements in insertion order; whenever an append finds the block full, the new
block has exactly `max 1 (capacity * 2)` slots (otherwise capacity is kept);
and starting empty, three pushes grow the capacity 0 to 1 to 2 to 4 with final
contents `[1, 2, 3]`. -/
theorem c6_pushBack (v : Vector Nat) (xs : List Nat) (h : v.WF) :
    ((v.pushMany xs).size_ = v.size_ + xs.length ∧
      (v.pushMany xs).elems = v.elems ++ xs) ∧
    (∀ (w : Vector Nat) (x : Nat), w.WF → w.size_ = w.Capacity →
      (w.PushBack x).Capacity = max 1 (w.Capacity * 2)) ∧
    (∀ (w : Vector Nat) (x : Nat), w.size_ ≠ w.Capacity →
      (w.PushBack x).Capacity = w.Capacity) ∧
    ((Vector.empty : Vector Nat).Capacity = 0 ∧
      ((Vector.empty : Vector Nat).pushMany [1]).Capacity = 1 ∧
      ((Vector.empty : Vector Nat).pushMany [1, 2]).Capacity = 2 ∧
      ((Vector.empty : Vector Nat).pushMany [1, 2, 3]).Capacity = 4 ∧
      ((Vector.empty : Vector Nat).pushMany [1, 2, 3]).size_ = 3 ∧
      ((Vector.empty : Vector Nat).pushMany [1, 2, 3]).elems = [1, 2, 3]) := by
  refine ⟨⟨(pushMany_spec xs v h).2.1, (pushMany_spec xs v h).2.2⟩,
    fun w x hw hfull => pushBack_grow_step w x hw hfull,
    fun w x hw => pushBack_keep_cap w x hw, ?_⟩
  refine ⟨rfl, ?_, ?_, ?_, ?_, ?_⟩ <;> decide

/-- C6 witness: the theorem instantiated at the empty vector and the push
sequence 1, 2, 3 of the spec's concrete trace. -/
theorem c6_pushBack_witness :
    (((Vector.empty : Vector Nat).pushMany [1, 2, 3]).size_ =
        (Vector.empty : Vector Nat).size_ + [1, 2, 3].length ∧
      ((Vector.empty : Vector Nat).pushMany [1, 2, 3]).elems =
        (Vector.empty : Vector Nat).elems ++ [1, 2, 3]) ∧
    (∀ (w : Vector Nat) (x : Nat), w.WF → w.size_ = w.Capacity →
      (w.PushBack x).Capacity = max 1 (w.Capacity * 2)) ∧
    (∀ (w : Vector Nat) (x : Nat), w.size_ ≠ w.Capacity →
      (w.PushBack x).Capacity = w.Capacity) ∧
    ((Vector.empty : Vector Nat).Capacity = 0 ∧
      ((Vector.empty : Vector Nat).pushMany [1]).Capacity = 1 ∧
      ((Vector.empty : Vector Nat).pushMany [1, 2]).Capacity = 2 ∧
      ((Vector.empty : Vector Nat).pushMany [1, 2, 3]).Capacity = 4 ∧
      ((Vector.empty : Vector Nat).pushMany [1, 2, 3]).size_ = 3 ∧
      ((Vector.empty : Vector Nat).pushMany [1, 2, 3]).elems = [1, 2, 3]) :=
  c6_pushBack Vector.empty [1, 2, 3] wf_empty

theorem concat_decomp {l : List α} (h : l ≠ []) : ∃ L e, l = L ++ [e] := by
  rcases List.eq_nil_or_concat l with h0 | ⟨L, e, hLe⟩
  · exact absurd h0 h
  · exact ⟨L, e, by rw [hLe, List.concat_eq_append]⟩

theorem newBlock_set (N p : Nat) (x : α) (hp : p < N) :
    (RawMemory.allocate α N).slots.set p (some x) =
      List.replicate p none ++ some x :: List.replicate (N - p - 1) none := by
  rw [RawMemory.allocate]
  exact set_replicate_split N p none (some x) hp


theorem take_len_append (u w : List α) (n : Nat) (h : u.length = n) :
    (u ++ w).take n = u := List.take_left' h

theorem drop_len_append (u w : List α) (n : Nat) (h : u.length = n) :
    (u ++ w).drop n = w := List.drop_left' h

theorem insert_canon_full (a b : List α) (x : α) (hb : b ≠ []) :
    Vector.Insert ⟨⟨(a ++ b).map some⟩, (a ++ b).length⟩ a.length x =
      (⟨⟨(a ++ x :: b).map some ++
          List.replicate
            (growCapacity (a ++ b).length (a ++ b).length - ((a ++ b).length + 1))
            none⟩,
        (a ++ b).length + 1⟩, a.length) := by
  have hblen : 0 < b.length := List.length_pos.mpr hb
  have hcap : Vector.Capacity ⟨⟨(a ++ b).map some⟩, (a ++ b).length⟩ =
      (a ++ b).length := by
    simp [Vector.Capacity, RawMemory.capacity]
  have hlt : (a ++ b).length < growCapacity (a ++ b).length (a ++ b).length :=
    succ_le_growCapacity _
  have hpS : a.length < (a ++ b).length := by
    simp only [List.length_append]; omega
  unfold Vector.Insert
  rw [if_neg (by show ¬(a.length = (a ++ b).length); omega), if_pos (by rw [hcap])]
  simp only [hcap]
  congr 2
  have e1 : (RawMemory.allocate α
      (growCapacity (a ++ b).length (a ++ b).length)).slots.set a.length (some x) =
      List.replicate a.length none ++ some x ::
        List.replicate (growCapacity (a ++ b).length (a ++ b).length - a.length - 1)
          none :=
    newBlock_set _ _ _ (by omega)
  rw [e1]
  have e2 : copySlots ((a ++ b).map some) 0 a.length
      (List.replicate a.length none ++ some x ::
        List.replicate (growCapacity (a ++ b).length (a ++ b).length - a.length - 1)
          none) 0 =
      List.map some a ++ some x ::
        List.replicate (growCapacity (a ++ b).length (a ++ b).length - a.length - 1)
          none := by
    rw [copySlots]
    simp only [List.take_zero, List.drop_zero, List.nil_append, Nat.zero_add]
    rw [List.map_append, take_len_append (List.map some a) _ _ (by simp),
      drop_len_append (List.replicate a.length none) _ _ (by simp)]
  rw [e2]
  have e3 : copySlots ((a ++ b).map some) a.length ((a ++ b).length - a.length)
      (List.map some a ++ some x ::
        List.replicate (growCapacity (a ++ b).length (a ++ b).length - a.length - 1)
          none)
      (a.length + 1) =
      List.map some a ++ some x :: (List.map some b ++
        List.replicate
          (growCapacity (a ++ b).length (a ++ b).length - ((a ++ b).length + 1))
          none) := by
    rw [copySlots]
    have t1 : (List.map some a ++ some x ::
        List.replicate (growCapacity (a ++ b).length (a ++ b).length - a.length - 1)
          none).take (a.length + 1) = List.map some a ++ [some x] := by
      rw [List.take_append_eq_append_take, List.take_of_length_le (by simp),
        show a.length + 1 - (List.map some a).length = 1 by simp]
      rfl
    have t2 : ((a ++ b).map some).drop a.length = List.map some b := by
      rw [List.map_append]
      exact drop_len_append _ _ _ (by simp)
    have t3 : (List.map some b).take ((a ++ b).length - a.length) =
        List.map some b := by
      refine List.take_of_length_le ?_
      simp only [List.length_map, List.length_append]
      omega
    have t4 : (List.map some a ++ some x ::
        List.replicate (growCapacity (a ++ b).length (a ++ b).length - a.length - 1)
          none).drop (a.length + 1 + ((a ++ b).length - a.length)) =
        List.replicate
          (growCapacity (a ++ b).length (a ++ b).length - ((a ++ b).length + 1))
          none := by
      rw [List.drop_append_eq_append_drop,
        List.drop_of_length_le (by simp only [List.length_map]; omega),
        show a.length + 1 + ((a ++ b).length - a.length) - (List.map some a).length =
          b.length + 1 by simp only [List.length_map, List.length_append]; omega,
        List.drop_succ_cons, List.drop_replicate]
      rw [show growCapacity (a ++ b).length (a ++ b).length - a.length - 1 - b.length =
        growCapacity (a ++ b).length (a ++ b).length - ((a ++ b).length + 1) by
        simp only [List.length_append]; omega]
      simp
    rw [t1, t2, t3, t4]
    simp
  rw [e3]
  simp

theorem insert_canon_room (a b : List α) (k : Nat) (x : α) (hb : b ≠ []) :
    Vector.Insert ⟨⟨(a ++ b).map some ++ List.replicate (k + 1) none⟩,
        (a ++ b).length⟩ a.length x =
      (⟨⟨(a ++ x :: b).map some ++ List.replicate k none⟩, (a ++ b).length + 1⟩,
        a.length) := by
  have hblen : 0 < b.length := List.length_pos.mpr hb
  obtain ⟨c, e, hce⟩ := concat_decomp hb
  obtain ⟨z, zs, hz⟩ := List.exists_cons_of_ne_nil hb
  have hclen : b.length = c.length + 1 := by rw [hce]; simp
  have hcap : Vector.Capacity ⟨⟨(a ++ b).map some ++ List.replicate (k + 1) none⟩,
      (a ++ b).length⟩ = (a ++ b).length + (k + 1) := by
    simp only [Vector.Capacity, RawMemory.capacity, List.length_append,
      List.length_map, List.length_replicate]
  have hpS : a.length < (a ++ b).length := by
    simp only [List.length_append]; omega
  unfold Vector.Insert
  rw [if_neg (by show ¬(a.length = (a ++ b).length); omega),
    if_neg (by rw [hcap]; show ¬((a ++ b).length = (a ++ b).length + (k + 1)); omega)]
  simp only []
  have hgetD : ((a ++ b).map some ++ List.replicate (k + 1) none).getD
      ((a ++ b).length - 1) none = some e := by
    have hgroup : (a ++ b).map some ++ List.replicate (k + 1) none =
        (List.map some (a ++ c) ++ [some e]) ++ List.replicate (k + 1) none := by
      rw [hce]; simp
    have g1 : (a ++ b).length - 1 <
        (List.map some (a ++ c) ++ [some e]).length := by
      simp only [List.length_append, List.length_map, List.length_singleton]
      omega
    have g2 : (List.map some (a ++ c)).length ≤ (a ++ b).length - 1 := by
      simp only [List.length_map, List.length_append]
      omega
    rw [hgroup, List.getD_append _ _ _ _ g1, List.getD_append_right _ _ _ _ g2,
      show (a ++ b).length - 1 - (List.map some (a ++ c)).length = 0 by
        simp only [List.length_map, List.length_append]; omega]
    rfl
  have hset : ((a ++ b).map some ++ List.replicate (k + 1) none).set
      (a ++ b).length (some e) =
      List.map some (a ++ b) ++ some e :: List.replicate k none := by
    rw [List.set_append_right _ _ (by simp),
      show (a ++ b).length - ((a ++ b).map some).length = 0 by simp,
      List.replicate_succ, List.set_cons_zero]
  rw [hgetD, hset]
  congr 2
  have hs1 : List.map some (a ++ b) ++ some e :: List.replicate k none =
      List.map some a ++ (List.map some b ++ some e :: List.replicate k none) := by
    simp
  have htake : (List.map some (a ++ b) ++ some e :: List.replicate k none).take
      (a.length + 1) = List.map some a ++ [some z] := by
    rw [hs1, List.take_append_eq_append_take, List.take_of_length_le (by simp),
      show a.length + 1 - (List.map some a).length = 1 by simp, hz]
    rfl
  have hdrop1 : (List.map some (a ++ b) ++ some e :: List.replicate k none).drop
      a.length = List.map some b ++ some e :: List.replicate k none := by
    rw [hs1]
    exact drop_len_append _ _ _ (by simp)
  have hmid : ((List.map some (a ++ b) ++ some e :: List.replicate k none).drop
      a.length).take ((a ++ b).length - 1 - a.length) = List.map some c := by
    rw [hdrop1,
      show (a ++ b).length - 1 - a.length = c.length by
        simp only [List.length_append]; omega,
      hce, List.map_append, List.append_assoc]
    exact take_len_append _ _ _ (by simp)
  have hdrop2 : (List.map some (a ++ b) ++ some e :: List.replicate k none).drop
      (a.length + 1 + ((a ++ b).length - 1 - a.length)) =
      some e :: List.replicate k none := by
    rw [show a.length + 1 + ((a ++ b).length - 1 - a.length) = (a ++ b).length by
      simp only [List.length_append]; omega]
    exact drop_len_append _ _ _ (by simp)
  rw [copySlots, htake, hmid, hdrop2]
  rw [show List.map some a ++ [some z] ++ List.map some c ++
      some e :: List.replicate k none =
      List.map some a ++ (some z :: (List.map some c ++
        some e :: List.replicate k none)) by simp]
  rw [List.set_append_right _ _ (by simp),
    show a.length - (List.map some a).length = 0 by simp,
    List.set_cons_zero, hce]
  simp

theorem erase_canon (a b : List α) (e : α) (k : Nat) :
    Vector.Erase ⟨⟨(a ++ e :: b).map some ++ List.replicate k none⟩,
        (a ++ e :: b).length⟩ a.length =
      (⟨⟨(a ++ b).map some ++ List.replicate (k + 1) none⟩, (a ++ b).length⟩,
        a.length) := by
  obtain ⟨L, w, hLw⟩ := concat_decomp (l := a ++ e :: b) (by simp)
  have hLlen : L.length = a.length + b.length := by
    have h0 := congrArg List.length hLw
    simp only [List.length_append, List.length_cons, List.length_nil] at h0
    omega
  have hsz : (a ++ e :: b).length - 1 = (a ++ b).length := by
    simp only [List.length_append, List.length_cons]; omega
  unfold Vector.Erase
  simp only [hsz]
  congr 2
  have ht : ((a ++ e :: b).map some ++ List.replicate k none).take a.length =
      List.map some a := by
    rw [List.map_append, List.append_assoc]
    exact take_len_append _ _ _ (by simp)
  have hd1 : ((a ++ e :: b).map some ++ List.replicate k none).drop
      (a.length + 1) = List.map some b ++ List.replicate k none := by
    rw [show (a ++ e :: b).map some ++ List.replicate k none =
        (List.map some a ++ [some e]) ++
          (List.map some b ++ List.replicate k none) by simp]
    exact drop_len_append _ _ _ (by simp)
  have hmid : (((a ++ e :: b).map some ++ List.replicate k none).drop
      (a.length + 1)).take ((a ++ e :: b).length - (a.length + 1)) =
      List.map some b := by
    rw [hd1,
      show (a ++ e :: b).length - (a.length + 1) = b.length by
        simp only [List.length_append, List.length_cons]; omega]
    exact take_len_append _ _ _ (by simp)
  have hd2 : ((a ++ e :: b).map some ++ List.replicate k none).drop
      (a.length + ((a ++ e :: b).length - (a.length + 1))) =
      some w :: List.replicate k none := by
    rw [show a.length + ((a ++ e :: b).length - (a.length + 1)) = L.length by
      simp only [List.length_append, List.length_cons]; omega]
    rw [show (a ++ e :: b).map some ++ List.replicate k none =
        List.map some L ++ (some w :: List.replicate k none) by
      rw [hLw]; simp]
    exact drop_len_append _ _ _ (by simp)
  rw [copySlots, ht, hmid, hd2]
  rw [show List.map some a ++ List.map some b ++ some w :: List.replicate k none =
      List.map some (a ++ b) ++ some w :: List.replicate k none by simp]
  rw [List.set_append_right _ _ (by simp),
    show (a ++ b).length - ((a ++ b).map some).length = 0 by simp,
    List.set_cons_zero]
  simp [List.replicate_succ]

/-- C7: for a well-formed vector and any valid position p (with `p = size_`
meaning `end()`), Insert keeps the other elements in order, places the value
at logical position p, grows the size by exactly one, and returns the index
of the inserted element. -/
theorem c7_insert (v : Vector α) (p : Nat) (x : α) (h : v.WF) (hp : p ≤ v.size_) :
    (v.Insert p x).1.WF ∧
    (v.Insert p x).1.size_ = v.size_ + 1 ∧
    (v.Insert p x).1.elems = v.elems.take p ++ x :: v.elems.drop p ∧
    (v.Insert p x).2 = p := by
  obtain ⟨⟨s⟩, n⟩ := v
  obtain ⟨l, k, hs, hn⟩ := h
  simp only at hs hn
  subst hs
  subst hn
  have hp2 : p ≤ l.length := hp
  rw [elems_canon]
  rcases Nat.lt_or_ge p l.length with hplt | hpge
  · have hbne : l.drop p ≠ [] := by
      rw [ne_eq, List.drop_eq_nil_iff]
      omega
    have halen : (l.take p).length = p := by
      simp only [List.length_take]
      omega
    have hl : l = l.take p ++ l.drop p := (List.take_append_drop p l).symm
    have hins : Vector.Insert (⟨⟨l.map some ++ List.replicate k none⟩,
        l.length⟩ : Vector α) p x =
        Vector.Insert ⟨⟨(l.take p ++ l.drop p).map some ++
          List.replicate k none⟩, (l.take p ++ l.drop p).length⟩
          (l.take p).length x := by
      rw [← hl, halen]
    cases k with
    | zero =>
      have hz2 : ((l.take p ++ l.drop p).map some ++
          List.replicate 0 (none : Option α)) = (l.take p ++ l.drop p).map some := by
        simp
      rw [hins]
      rw [show (⟨⟨(l.take p ++ l.drop p).map some ++ List.replicate 0 none⟩,
          (l.take p ++ l.drop p).length⟩ : Vector α) =
          ⟨⟨(l.take p ++ l.drop p).map some⟩, (l.take p ++ l.drop p).length⟩ by
        rw [hz2]]
      rw [insert_canon_full _ _ _ hbne]
      refine ⟨⟨l.take p ++ x :: l.drop p, _, rfl, by
        simp only [List.length_append, List.length_take, List.length_cons,
          List.length_drop]
        omega⟩, ?_, ?_, halen⟩
      · simp only [List.length_append, List.length_take, List.length_cons,
          List.length_drop]
        omega
      · rw [elems_canon' _ _ _ (by
          simp only [List.length_append, List.length_take, List.length_cons,
            List.length_drop]
          omega)]
    | succ k2 =>
      rw [hins, insert_canon_room _ _ _ _ hbne]
      refine ⟨⟨l.take p ++ x :: l.drop p, k2, rfl, by
        simp only [List.length_append, List.length_take, List.length_cons,
          List.length_drop]
        omega⟩, ?_, ?_, halen⟩
      · simp only [List.length_append, List.length_take, List.length_cons,
          List.length_drop]
        omega
      · rw [elems_canon' _ _ _ (by
          simp only [List.length_append, List.length_take, List.length_cons,
            List.length_drop]
          omega)]
  · have hpeq : p = l.length := by omega
    subst hpeq
    unfold Vector.Insert
    rw [if_pos rfl]
    have hpb := pushBack_spec ⟨⟨l.map some ++ List.replicate k none⟩, l.length⟩ x
      ⟨l, k, rfl, rfl⟩
    rw [elems_canon] at hpb
    refine ⟨hpb.1, hpb.2.1, ?_, rfl⟩
    rw [hpb.2.2.1, List.take_of_length_le (le_refl _),
      List.drop_of_length_le (le_refl _)]

/-- C7 witness: inserting 99 at position 1 of `[1, 2, 3]` (capacity 4, room
available) gives `[1, 99, 2, 3]` and size 4, per the spec's concrete trace. -/
theorem c7_insert_witness :
    ((⟨⟨[some 1, some 2, some 3, none]⟩, 3⟩ : Vector Nat).Insert 1 99).1.elems =
        [1, 99, 2, 3] ∧
    ((⟨⟨[some 1, some 2, some 3, none]⟩, 3⟩ : Vector Nat).Insert 1 99).1.size_ = 4 ∧
    ((⟨⟨[some 1, some 2, some 3, none]⟩, 3⟩ : Vector Nat).Insert 1 99).2 = 1 := by
  have h := c7_insert (⟨⟨[some 1, some 2, some 3, none]⟩, 3⟩ : Vector Nat) 1 99
    ⟨[1, 2, 3], 1, rfl, rfl⟩ (by decide)
  refine ⟨?_, ?_, h.2.2.2⟩
  · rw [h.2.2.1]
    decide
  · rw [h.2.1]

/-- C8: for a well-formed vector and a valid position `p < size_`, Erase
removes exactly the element at p, shifts the elements after p one position
earlier preserving their order, decreases the size by exactly one, and
returns index p (the slot of the element that followed, or `end()` when the
last element was erased). -/
theorem c8_erase (v : Vector α) (p : Nat) (h : v.WF) (hp : p < v.size_) :
    (v.Erase p).1.WF ∧
    (v.Erase p).1.size_ = v.size_ - 1 ∧
    (v.Erase p).1.elems = v.elems.take p ++ v.elems.drop (p + 1) ∧
    (v.Erase p).2 = p := by
  obtain ⟨⟨s⟩, n⟩ := v
  obtain ⟨l, k, hs, hn⟩ := h
  simp only at hs hn
  subst hs
  subst hn
  have hp2 : p < l.length := hp
  rw [elems_canon]
  have hne : l.drop p ≠ [] := by
    rw [ne_eq, List.drop_eq_nil_iff]
    omega
  obtain ⟨e, t, het⟩ := List.exists_cons_of_ne_nil hne
  have halen : (l.take p).length = p := by
    simp only [List.length_take]
    omega
  have hts : t = l.drop (p + 1) := by
    have h1 : (l.drop p).tail = t := by rw [het]; rfl
    rw [← h1, List.tail_drop]
  have hl : l = l.take p ++ e :: t := by
    rw [← het]
    exact (List.take_append_drop p l).symm
  have hcast : Vector.Erase (⟨⟨l.map some ++ List.replicate k none⟩,
      l.length⟩ : Vector α) p =
      Vector.Erase ⟨⟨(l.take p ++ e :: t).map some ++ List.replicate k none⟩,
        (l.take p ++ e :: t).length⟩ (l.take p).length := by
    rw [← hl, halen]
  rw [hcast, erase_canon]
  refine ⟨⟨l.take p ++ t, k + 1, rfl, by simp⟩, ?_, ?_, halen⟩
  · have h0 := congrArg List.length hl
    simp only [List.length_append, List.length_cons] at h0
    rw [show ((⟨⟨(l.take p ++ t).map some ++ List.replicate (k + 1) none⟩,
      (l.take p ++ t).length⟩ : Vector α)).size_ = (l.take p ++ t).length by rfl]
    simp only [List.length_append]
    omega
  · rw [elems_canon' _ _ _ (by simp), hts]

/-- C8 witness: erasing position 2 of `[1, 99, 2, 3]` (the spec's trace
shape) gives `[1, 99, 3]`, size 3, returned index 2. -/
theorem c8_erase_witness :
    ((⟨⟨[some 1, some 99, some 2, some 3]⟩, 4⟩ : Vector Nat).Erase 2).1.elems =
        [1, 99, 3] ∧
    ((⟨⟨[some 1, some 99, some 2, some 3]⟩, 4⟩ : Vector Nat).Erase 2).1.size_ = 3 ∧
    ((⟨⟨[some 1, some 99, some 2, some 3]⟩, 4⟩ : Vector Nat).Erase 2).2 = 2 := by
  have h := c8_erase (⟨⟨[some 1, some 99, some 2, some 3]⟩, 4⟩ : Vector Nat) 2
    ⟨[1, 99, 2, 3], 0, rfl, rfl⟩ (by decide)
  refine ⟨?_, ?_, h.2.2.2⟩
  · rw [h.2.2.1]
    decide
  · rw [h.2.1]
    decide


theorem length_copySlots (src : List (Option α)) (o c : Nat)
    (dst : List (Option α)) (d : Nat) (h1 : d + c ≤ dst.length)
    (h2 : o + c ≤ src.length) :
    (copySlots src o c dst d).length = dst.length := by
  simp only [copySlots, List.length_append, List.length_take, List.length_drop]
  omega

theorem length_fillSlots (xs : List (Option α)) (o c : Nat) (w : Option α)
    (h : o + c ≤ xs.length) :
    (fillSlots xs o c w).length = xs.length := by
  simp only [fillSlots, List.length_append, List.length_take,
    List.length_replicate, List.length_drop]
  omega

theorem wf_size_le_cap (v : Vector α) (h : v.WF) : v.size_ ≤ v.Capacity := by
  obtain ⟨l, k, hs, hn⟩ := h
  have h1 := congrArg List.length hs
  simp only [List.length_append, List.length_map, List.length_replicate] at h1
  simp only [Vector.Capacity, RawMemory.capacity]
  omega

theorem insert_cap (v : Vector α) (p : Nat) (x : α) (h : v.WF) (hp : p ≤ v.size_) :
    (v.size_ = v.Capacity → (v.Insert p x).1.Capacity = max 1 (v.Capacity * 2)) ∧
    (v.size_ ≠ v.Capacity → (v.Insert p x).1.Capacity = v.Capacity) := by
  obtain ⟨⟨s⟩, n⟩ := v
  obtain ⟨l, k, hs, hn⟩ := h
  simp only at hs hn
  subst hs
  subst hn
  have hp2 : p ≤ l.length := hp
  rcases Nat.lt_or_ge p l.length with hplt | hpge
  · have hbne : l.drop p ≠ [] := by
      rw [ne_eq, List.drop_eq_nil_iff]
      omega
    have halen : (l.take p).length = p := by
      simp only [List.length_take]
      omega
    have hl : l = l.take p ++ l.drop p := (List.take_append_drop p l).symm
    have hins : Vector.Insert (⟨⟨l.map some ++ List.replicate k none⟩,
        l.length⟩ : Vector α) p x =
        Vector.Insert ⟨⟨(l.take p ++ l.drop p).map some ++
          List.replicate k none⟩, (l.take p ++ l.drop p).length⟩
          (l.take p).length x := by
      rw [← hl, halen]
    have hcap4 := capacity_canon (α := α) l k
    cases k with
    | zero =>
      have hz2 : ((l.take p ++ l.drop p).map some ++
          List.replicate 0 (none : Option α)) = (l.take p ++ l.drop p).map some := by
        simp
      rw [hins]
      rw [show (⟨⟨(l.take p ++ l.drop p).map some ++ List.replicate 0 none⟩,
          (l.take p ++ l.drop p).length⟩ : Vector α) =
          ⟨⟨(l.take p ++ l.drop p).map some⟩, (l.take p ++ l.drop p).length⟩ by
        rw [hz2]]
      rw [insert_canon_full _ _ _ hbne]
      constructor
      · intro hfull
        rw [hcap4]
        rw [capacity_canon' _ _ _ (by
          simp only [List.length_append, List.length_take, List.length_cons,
            List.length_drop]
          omega)]
        have h6 := succ_le_growCapacity (l.take p ++ l.drop p).length
        rw [growCapacity_self] at h6 ⊢
        have h7 : (l.take p ++ l.drop p).length = l.length := by rw [← hl]
        rw [h7] at h6 ⊢
        simp only [List.length_append, List.length_take, List.length_cons,
          List.length_drop] at h6 ⊢
        omega
      · intro hne
        exfalso
        apply hne
        rw [hcap4]
        show l.length = l.length + 0
        omega
    | succ k2 =>
      rw [hins, insert_canon_room _ _ _ _ hbne]
      constructor
      · intro hfull
        rw [hcap4] at hfull
        exfalso
        have : l.length = l.length + (k2 + 1) := hfull
        omega
      · intro hne
        rw [hcap4]
        rw [capacity_canon' _ _ _ (by
          simp only [List.length_append, List.length_take, List.length_cons,
            List.length_drop]
          omega)]
        have h7 : (l.take p ++ l.drop p).length = l.length := by rw [← hl]
        simp only [List.length_append, List.length_take, List.length_cons,
          List.length_drop] at h7 ⊢
        omega
  · have hpeq : p = l.length := by omega
    subst hpeq
    unfold Vector.Insert
    rw [if_pos rfl]
    exact ⟨fun hfull => pushBack_grow_step _ x ⟨l, k, rfl, rfl⟩ hfull,
      fun hne => pushBack_keep_cap _ x hne⟩

theorem erase_cap (v : Vector α) (p : Nat) (h : v.WF) (hp : p < v.size_) :
    (v.Erase p).1.Capacity = v.Capacity := by
  have hsc := wf_size_le_cap v h
  simp only [Vector.Erase, Vector.Capacity, RawMemory.capacity, List.length_set]
  rw [length_copySlots]
  · simp only [Vector.Capacity, RawMemory.capacity] at hsc
    omega
  · simp only [Vector.Capacity, RawMemory.capacity] at hsc
    omega

theorem popBack_cap (v : Vector α) : (v.PopBack).Capacity = v.Capacity := by
  simp [Vector.PopBack, Vector.Capacity, RawMemory.capacity]

theorem reserve_cap (v : Vector α) (m : Nat) (h : v.WF) :
    v.Capacity ≤ (v.Reserve m).Capacity ∧
    (v.Capacity < m → (v.Reserve m).Capacity = m) := by
  have hsc := wf_size_le_cap v h
  unfold Vector.Reserve
  rcases le_or_lt m v.Capacity with hle | hlt
  · rw [if_pos hle]
    exact ⟨le_refl _, by omega⟩
  · rw [if_neg (by omega)]
    have hlen : (copySlots v.data_.slots 0 v.size_
        (RawMemory.allocate α m).slots 0).length = m := by
      rw [length_copySlots]
      · simp [RawMemory.allocate]
      · simp only [RawMemory.allocate, List.length_replicate, Nat.zero_add]
        simp only [Vector.Capacity, RawMemory.capacity] at hsc hlt
        omega
      · simp only [Vector.Capacity, RawMemory.capacity] at hsc
        omega
    constructor
    · simp only [Vector.Capacity, RawMemory.capacity]
      simp only [Vector.Capacity] at hlen
      rw [hlen]
      simp only [Vector.Capacity, RawMemory.capacity] at hlt
      omega
    · intro h2
      simp only [Vector.Capacity, RawMemory.capacity]
      exact hlen

theorem reserve_size (v : Vector α) (m : Nat) : (v.Reserve m).size_ = v.size_ := by
  unfold Vector.Reserve
  split
  · rfl
  · rfl

theorem resize_cap [Inhabited α] (v : Vector α) (m : Nat) (h : v.WF) :
    v.Capacity ≤ (v.Resize m).Capacity := by
  have hsc := wf_size_le_cap v h
  unfold Vector.Resize
  rcases Nat.lt_or_ge v.size_ m with hlt | hge
  · rw [if_pos hlt]
    have hr := reserve_cap v m h
    have hr2 := reserve_size v m
    have hrange : v.size_ + (m - v.size_) ≤ (v.Reserve m).data_.slots.length := by
      have : m ≤ (v.Reserve m).Capacity := by
        rcases le_or_lt m v.Capacity with hA | hB
        · omega
        · rw [(hr.2 hB)]
      simp only [Vector.Capacity, RawMemory.capacity] at this
      omega
    simp only [Vector.Capacity, RawMemory.capacity]
    rw [length_fillSlots _ _ _ _ hrange]
    have := hr.1
    simp only [Vector.Capacity, RawMemory.capacity] at this
    exact this
  · rw [if_neg (by omega)]
    rcases Nat.lt_or_ge m v.size_ with hlt2 | hge2
    · rw [if_pos hlt2]
      simp only [Vector.Capacity, RawMemory.capacity]
      rw [length_fillSlots]
      simp only [Vector.Capacity, RawMemory.capacity] at hsc
      omega
    · rw [if_neg (by omega)]
      exact Nat.le_refl _

/-- C1: the source's move assignment `data_.Swap(rhs.data_); rhs.size_ = 0`
never transfers the sizes.  Concrete run: t = [10, 20] (size 2), s = [5]
(size 1); after t = std::move(s), t's size_ is still 2 (not s's prior size
1), t's block is s's old 1-slot block — so t does not hold s's prior content
and its size exceeds its capacity — and s keeps t's old block with both old
elements still constructed while its size is 0. -/
theorem c1_moveAssign_bug :
    (Vector.moveAssign (⟨⟨[some 10, some 20]⟩, 2⟩ : Vector Nat)
        ⟨⟨[some 5]⟩, 1⟩).1 = ⟨⟨[some 5]⟩, 2⟩ ∧
    (⟨⟨[some 5]⟩, 1⟩ : Vector Nat).size_ = 1 ∧
    (Vector.moveAssign (⟨⟨[some 10, some 20]⟩, 2⟩ : Vector Nat)
        ⟨⟨[some 5]⟩, 1⟩).1.size_ ≠ (⟨⟨[some 5]⟩, 1⟩ : Vector Nat).size_ ∧
    (Vector.moveAssign (⟨⟨[some 10, some 20]⟩, 2⟩ : Vector Nat)
        ⟨⟨[some 5]⟩, 1⟩).2 = ⟨⟨[some 10, some 20]⟩, 0⟩ := by
  exact ⟨rfl, rfl, by decide, rfl⟩

/-- C4: after the move assignment above the target violates the basic
invariant `size_ <= capacity`: its size is 3 but its block has 1 slot, and it
is not well-formed (the slot run cannot match a live prefix of length 3). -/
theorem c4_invariant_bug :
    ((Vector.moveAssign (⟨⟨[some 1, some 2, some 3]⟩, 3⟩ : Vector Nat)
        ⟨⟨[none]⟩, 0⟩).1.Capacity <
      (Vector.moveAssign (⟨⟨[some 1, some 2, some 3]⟩, 3⟩ : Vector Nat)
        ⟨⟨[none]⟩, 0⟩).1.size_) ∧
    ¬ (Vector.moveAssign (⟨⟨[some 1, some 2, some 3]⟩, 3⟩ : Vector Nat)
        ⟨⟨[none]⟩, 0⟩).1.WF := by
  refine ⟨by decide, ?_⟩
  rintro ⟨l, k, hs, hn⟩
  have hs2 : [(none : Option Nat)] = l.map some ++ List.replicate k none := hs
  have hn2 : 3 = l.length := hn
  have h1 := congrArg List.length hs2
  simp only [List.length_cons, List.length_nil, List.length_append,
    List.length_map, List.length_replicate] at h1
  omega

/-- C3 counterexample: move-constructing from the one-element vector [7]
leaves the source with capacity 1 (a fresh raw block of `other.size_` slots
was allocated and swapped in), not capacity 0 as the claim states. -/
theorem c3_moveCtor_cex :
    (Vector.moveCtor (⟨⟨[some 7]⟩, 1⟩ : Vector Nat)).2.Capacity ≠ 0 := by
  decide

/-- C3 amended: move-construction takes the source's block and size, so the
new vector holds exactly the source's prior content with no element copies
or moves, and the source is left empty with size 0 — but one raw allocation
of `other.size_` slots is performed and the source's capacity afterwards is
its prior size (all slots unconstructed), not 0. -/
theorem c3_moveCtor_amended (v : Vector α) (h : v.WF) :
    (v.moveCtor.1.data_ = v.data_ ∧ v.moveCtor.1.size_ = v.size_ ∧
      v.moveCtor.1.elems = v.elems ∧ v.moveCtor.1.Capacity = v.Capacity ∧
      v.moveCtor.1.WF) ∧
    (v.moveCtor.2.size_ = 0 ∧ v.moveCtor.2.Capacity = v.size_ ∧
      v.moveCtor.2.elems = [] ∧ v.moveCtor.2.WF) := by
  refine ⟨⟨rfl, rfl, rfl, rfl, h⟩, rfl, ?_, rfl, ?_⟩
  · simp [Vector.moveCtor, Vector.Capacity, RawMemory.capacity,
      RawMemory.allocate]
  · exact ⟨[], v.size_, by simp [Vector.moveCtor, RawMemory.allocate], rfl⟩

/-- C3 amended witness: at v = [7] with capacity 2. -/
theorem c3_moveCtor_amended_witness :
    ((⟨⟨[some 7, none]⟩, 1⟩ : Vector Nat).moveCtor.1.elems = [7]) ∧
    ((⟨⟨[some 7, none]⟩, 1⟩ : Vector Nat).moveCtor.2.size_ = 0) ∧
    ((⟨⟨[some 7, none]⟩, 1⟩ : Vector Nat).moveCtor.2.Capacity = 1) := by
  have h := c3_moveCtor_amended (⟨⟨[some 7, none]⟩, 1⟩ : Vector Nat)
    ⟨[7], 1, rfl, rfl⟩
  refine ⟨?_, h.2.1, ?_⟩
  · rw [h.1.2.2.1]
    decide
  · rw [h.2.2.1]

/-- C5 counterexample: the claim fails in two ways.  Capacity is not
monotonically non-decreasing over every operation: move-construction from a
vector with size 1 and capacity 4 leaves that object (the source) with
capacity 1 < 4.  And absent reserve, capacity does not only increase by a
geometric doubling step: copy-assigning a five-element source into a
capacity-2 target (the temporary-copy-and-swap path of the source, lines
370-372) jumps the target capacity to exactly 5, which is neither the old
capacity 2 nor the doubling step `max 1 (2 * 2) = 4`. -/
theorem c5_capacity_cex :
    ((((⟨⟨[some 7, none, none, none]⟩, 1⟩ : Vector Nat).moveCtor.2).Capacity <
      (⟨⟨[some 7, none, none, none]⟩, 1⟩ : Vector Nat).Capacity) ∧
    ((Vector.copyAssignF (fun _ => false) (⟨⟨[none, none]⟩, 0⟩ : Vector Nat)
        ⟨⟨[some 1, some 2, some 3, some 4, some 5]⟩, 5⟩).1.Capacity = 5 ∧
      (⟨⟨[none, none]⟩, 0⟩ : Vector Nat).Capacity = 2 ∧
      max 1 ((⟨⟨[none, none]⟩, 0⟩ : Vector Nat).Capacity * 2) = 4)) := by
  refine ⟨by decide, by decide, by decide, by decide⟩

theorem length_assignLoop (fc : α → Bool) :
    ∀ (n : Nat) (dst src : List (Option α)),
      ((assignLoop fc dst src n).1).length = dst.length := by
  intro n
  induction n with
  | zero => intro dst src; simp [assignLoop]
  | succ m ih =>
    intro dst src
    cases dst with
    | nil =>
      cases src with
      | nil => simp [assignLoop]
      | cons x ss => simp [assignLoop]
    | cons d ds =>
      cases src with
      | nil => simp [assignLoop]
      | cons x ss =>
        cases x with
        | none => simp [assignLoop, ih]
        | some a =>
          cases hfa : fc a with
          | true => simp [assignLoop, hfa]
          | false => simp [assignLoop, hfa, ih]

theorem length_uninitializedCopyF_ok (fc : α → Bool) (src : List (Option α))
    (o c : Nat) (dst : List (Option α)) (d : Nat) (r : List (Option α))
    (h : uninitializedCopyF fc src o c dst d = .ok r)
    (h1 : d + c ≤ dst.length) (h2 : o + c ≤ src.length) :
    r.length = dst.length := by
  unfold uninitializedCopyF at h
  split at h
  · exact absurd h (by simp)
  · have h3 : copySlots src o c dst d = r := by
      injection h
    rw [← h3]
    exact length_copySlots src o c dst d h1 h2

theorem copyCtorF_ok_cap (fc : α → Bool) (s : Vector α) (c : Vector α)
    (hs : s.WF) (h : Vector.copyCtorF fc s = .ok c) : c.Capacity = s.size_ := by
  have hss := wf_size_le_cap s hs
  unfold Vector.copyCtorF at h
  rcases hU : uninitializedCopyF fc s.data_.slots 0 s.size_
      (RawMemory.allocate α s.size_).slots 0 with e | r
  · rw [hU] at h
    exact absurd h (by simp)
  · rw [hU] at h
    simp only [] at h
    have hc : c = ⟨⟨r⟩, s.size_⟩ := by
      injection h with h2
      exact h2.symm
    subst hc
    have hrlen := length_uninitializedCopyF_ok fc s.data_.slots 0 s.size_
      (RawMemory.allocate α s.size_).slots 0 r hU
      (by simp [RawMemory.allocate])
      (by simp only [Vector.Capacity, RawMemory.capacity] at hss; omega)
    simp only [Vector.Capacity, RawMemory.capacity]
    rw [hrlen]
    simp [RawMemory.allocate]

theorem copyAssign_cap (fc : α → Bool) (t s : Vector α) (ht : t.WF) (hs : s.WF) :
    t.Capacity ≤ (Vector.copyAssignF fc t s).1.Capacity := by
  have hts := wf_size_le_cap t ht
  have hss := wf_size_le_cap s hs
  have htlen : t.data_.slots.length = t.Capacity := rfl
  have hslen : s.data_.slots.length = s.Capacity := rfl
  unfold Vector.copyAssignF
  rcases Nat.lt_or_ge t.Capacity s.size_ with hgt | hle
  · rw [if_pos (show s.size_ > t.Capacity from hgt)]
    rcases hcc : Vector.copyCtorF fc s with e | c
    · exact Nat.le_refl _
    · simp only []
      rw [copyCtorF_ok_cap fc s c hs hcc]
      omega
  · rw [if_neg (by omega)]
    rcases Nat.lt_or_ge s.size_ t.size_ with hlt | hge
    · rw [if_pos hlt]
      rcases hA : assignLoop fc t.data_.slots s.data_.slots s.size_ with ⟨d, b⟩
      have hdlen : d.length = t.data_.slots.length := by
        have h4 := length_assignLoop fc s.size_ t.data_.slots s.data_.slots
        rw [hA] at h4
        exact h4
      cases b
      · simp only [Vector.Capacity, RawMemory.capacity]
        rw [length_fillSlots]
        · omega
        · omega
      · simp only [Vector.Capacity, RawMemory.capacity]
        omega
    · rw [if_neg (by omega)]
      rcases hA : assignLoop fc t.data_.slots s.data_.slots t.size_ with ⟨d, b⟩
      have hdlen : d.length = t.data_.slots.length := by
        have h4 := length_assignLoop fc t.size_ t.data_.slots s.data_.slots
        rw [hA] at h4
        exact h4
      cases b
      · simp only []
        rcases hU : uninitializedCopyF fc s.data_.slots t.size_
            (s.size_ - t.size_) d t.size_ with e | d2
        · simp only [Vector.Capacity, RawMemory.capacity]
          omega
        · simp only [Vector.Capacity, RawMemory.capacity]
          have hd2len := length_uninitializedCopyF_ok fc s.data_.slots t.size_
            (s.size_ - t.size_) d t.size_ d2 hU (by omega) (by omega)
          omega
      · simp only [Vector.Capacity, RawMemory.capacity]
        omega

theorem copyAssign_cap_within (fc : α → Bool) (t s : Vector α) (ht : t.WF)
    (hs : s.WF) (hle : s.size_ ≤ t.Capacity) :
    (Vector.copyAssignF fc t s).1.Capacity = t.Capacity := by
  have hts := wf_size_le_cap t ht
  have hss := wf_size_le_cap s hs
  have htlen : t.data_.slots.length = t.Capacity := rfl
  have hslen : s.data_.slots.length = s.Capacity := rfl
  unfold Vector.copyAssignF
  rw [if_neg (by omega)]
  rcases Nat.lt_or_ge s.size_ t.size_ with hlt | hge
  · rw [if_pos hlt]
    rcases hA : assignLoop fc t.data_.slots s.data_.slots s.size_ with ⟨d, b⟩
    have hdlen : d.length = t.data_.slots.length := by
      have h4 := length_assignLoop fc s.size_ t.data_.slots s.data_.slots
      rw [hA] at h4
      exact h4
    cases b
    · simp only [Vector.Capacity, RawMemory.capacity]
      rw [length_fillSlots]
      · omega
      · omega
    · simp only [Vector.Capacity, RawMemory.capacity]
      omega
  · rw [if_neg (by omega)]
    rcases hA : assignLoop fc t.data_.slots s.data_.slots t.size_ with ⟨d, b⟩
    have hdlen : d.length = t.data_.slots.length := by
      have h4 := length_assignLoop fc t.size_ t.data_.slots s.data_.slots
      rw [hA] at h4
      exact h4
    cases b
    · simp only []
      rcases hU : uninitializedCopyF fc s.data_.slots t.size_
          (s.size_ - t.size_) d t.size_ with e | d2
      · simp only [Vector.Capacity, RawMemory.capacity]
        omega
      · simp only [Vector.Capacity, RawMemory.capacity]
        have hd2len := length_uninitializedCopyF_ok fc s.data_.slots t.size_
          (s.size_ - t.size_) d t.size_ d2 hU (by omega) (by omega)
        omega
    · simp only [Vector.Capacity, RawMemory.capacity]
      omega

theorem copyAssign_cap_grow (fc : α → Bool) (t s : Vector α) (hs : s.WF)
    (hgt : t.Capacity < s.size_) :
    ((Vector.copyAssignF fc t s).2 = false →
      (Vector.copyAssignF fc t s).1.Capacity = s.size_) ∧
    ((Vector.copyAssignF fc t s).2 = true →
      (Vector.copyAssignF fc t s).1.Capacity = t.Capacity) := by
  unfold Vector.copyAssignF
  rw [if_pos (show s.size_ > t.Capacity from hgt)]
  rcases hcc : Vector.copyCtorF fc s with e | c
  · constructor
    · intro hok
      exact absurd hok (by simp)
    · intro htr
      rfl
  · constructor
    · intro hok
      simp only []
      exact copyCtorF_ok_cap fc s c hs hcc
    · intro htr
      exact absurd htr (by simp)

theorem resize_cap_exact [Inhabited α] (v : Vector α) (m : Nat) (h : v.WF) :
    (v.Capacity < m → (v.Resize m).Capacity = m) ∧
    (m ≤ v.Capacity → (v.Resize m).Capacity = v.Capacity) := by
  have hsc := wf_size_le_cap v h
  have hr := reserve_cap v m h
  have hvl : v.data_.slots.length = v.Capacity := rfl
  unfold Vector.Resize
  rcases Nat.lt_or_ge v.size_ m with hlt | hge
  · rw [if_pos hlt]
    have hrange : v.size_ + (m - v.size_) ≤ (v.Reserve m).data_.slots.length := by
      have h5 : m ≤ (v.Reserve m).Capacity := by
        rcases le_or_lt m v.Capacity with hA | hB
        · omega
        · rw [hr.2 hB]
      simp only [Vector.Capacity, RawMemory.capacity] at h5
      omega
    constructor
    · intro hcm
      simp only [Vector.Capacity, RawMemory.capacity]
      rw [length_fillSlots _ _ _ _ hrange]
      have h6 := hr.2 hcm
      simp only [Vector.Capacity, RawMemory.capacity] at h6
      omega
    · intro hmc
      have h7 : v.Reserve m = v := by
        unfold Vector.Reserve
        rw [if_pos hmc]
      simp only [Vector.Capacity, RawMemory.capacity]
      rw [length_fillSlots _ _ _ _ hrange, h7]
  · rw [if_neg (by omega)]
    rcases Nat.lt_or_ge m v.size_ with hlt2 | hge2
    · rw [if_pos hlt2]
      constructor
      · intro hcm
        omega
      · intro hmc
        simp only [Vector.Capacity, RawMemory.capacity]
        rw [length_fillSlots]
        omega
    · rw [if_neg (by omega)]
      constructor
      · intro hcm
        omega
      · intro hmc
        rfl

/-- C5 amended: capacity never decreases under any operation that does not
transfer storage ownership — PushBack, Insert, Erase, PopBack, Resize,
Reserve and copy-assignment are all capacity-monotone — and the geometric
doubling step is the growth rule of the append/insert paths only: when
PushBack or Insert finds the block full, the new block has exactly
`max 1 (capacity * 2)` slots, and when the block is not full they leave the
capacity untouched.  Erase and PopBack never change the capacity.  Reserve —
called directly or by a growing Resize — sets the capacity to exactly the
requested amount when that exceeds the current one and is a no-op otherwise.
Copy-assignment reuses the block (capacity untouched) whenever the source
fits into the current capacity, and otherwise reallocates to exactly the
source's size (target untouched when the temporary copy throws).
Move-construction and move-assignment are the exceptions: they can hand an
object a strictly smaller block. -/
theorem c5_capacity_amended (v : Vector Nat) (m : Nat) (h : v.WF) :
    (∀ (w : Vector Nat) (x : Nat), w.WF → w.Capacity ≤ (w.PushBack x).Capacity) ∧
    (∀ (w : Vector Nat) (p : Nat) (x : Nat), w.WF → p ≤ w.size_ →
      w.Capacity ≤ (w.Insert p x).1.Capacity) ∧
    (∀ (w : Vector Nat) (p : Nat), w.WF → p < w.size_ →
      (w.Erase p).1.Capacity = w.Capacity) ∧
    (∀ w : Vector Nat, (w.PopBack).Capacity = w.Capacity) ∧
    (∀ (w : Vector Nat) (x : Nat), w.WF → w.size_ = w.Capacity →
      (w.PushBack x).Capacity = max 1 (w.Capacity * 2)) ∧
    (∀ (w : Vector Nat) (x : Nat), w.size_ ≠ w.Capacity →
      (w.PushBack x).Capacity = w.Capacity) ∧
    (∀ (w : Vector Nat) (p : Nat) (x : Nat), w.WF → p ≤ w.size_ →
      w.size_ = w.Capacity → (w.Insert p x).1.Capacity = max 1 (w.Capacity * 2)) ∧
    (∀ (w : Vector Nat) (p : Nat) (x : Nat), w.WF → p ≤ w.size_ →
      w.size_ ≠ w.Capacity → (w.Insert p x).1.Capacity = w.Capacity) ∧
    ((v.Capacity < m → (v.Reserve m).Capacity = m) ∧
      (m ≤ v.Capacity → v.Reserve m = v)) ∧
    ((v.Capacity < m → (v.Resize m).Capacity = m) ∧
      (m ≤ v.Capacity → (v.Resize m).Capacity = v.Capacity)) ∧
    (∀ (u w : Vector Nat) (fc : Nat → Bool), u.WF → w.WF →
      (w.size_ ≤ u.Capacity →
        (Vector.copyAssignF fc u w).1.Capacity = u.Capacity) ∧
      (u.Capacity < w.size_ → (Vector.copyAssignF fc u w).2 = false →
        (Vector.copyAssignF fc u w).1.Capacity = w.size_) ∧
      (u.Capacity < w.size_ → (Vector.copyAssignF fc u w).2 = true →
        (Vector.copyAssignF fc u w).1.Capacity = u.Capacity)) := by
  refine ⟨fun w x hw => (pushBack_spec w x hw).2.2.2,
    fun w p x hw hp => ?_,
    fun w p hw hp => erase_cap w p hw hp,
    fun w => popBack_cap w,
    fun w x hw hfull => pushBack_grow_step w x hw hfull,
    fun w x hne => pushBack_keep_cap w x hne,
    fun w p x hw hp hfull => (insert_cap w p x hw hp).1 hfull,
    fun w p x hw hp hne => (insert_cap w p x hw hp).2 hne,
    ⟨(reserve_cap v m h).2, fun hmc => ?_⟩,
    resize_cap_exact v m h,
    fun u w fc hu hw =>
      ⟨fun hle => copyAssign_cap_within fc u w hu hw hle,
        fun hgt hok => (copyAssign_cap_grow fc u w hw hgt).1 hok,
        fun hgt htr => (copyAssign_cap_grow fc u w hw hgt).2 htr⟩⟩
  · rcases Nat.decEq w.size_ w.Capacity with hne | heq
    · rw [(insert_cap w p x hw hp).2 hne]
    · rw [(insert_cap w p x hw hp).1 heq]
      have := wf_size_le_cap w hw
      omega
  · unfold Vector.Reserve
    rw [if_pos hmc]

/-- C5 amended witness: the theorem instantiated at the empty vector and
m = 3, with the Reserve and Resize growth conclusions discharged there:
both set the capacity to exactly 3. -/
theorem c5_capacity_amended_witness :
    ((Vector.empty : Vector Nat).Reserve 3).Capacity = 3 ∧
    ((Vector.empty : Vector Nat).Resize 3).Capacity = 3 := by
  have h := c5_capacity_amended (Vector.empty : Vector Nat) 3 wf_empty
  exact ⟨h.2.2.2.2.2.2.2.2.1.1 (by decide), h.2.2.2.2.2.2.2.2.2.1.1 (by decide)⟩


theorem any_slotThrows_map (fc : α → Bool) (l : List α) :
    (l.map some).any (slotThrows fc) = l.any fc := by
  induction l with
  | nil => rfl
  | cons a tl ih =>
    simp only [List.map_cons, List.any_cons, ih]
    rfl

theorem any_take_false (fc : α → Bool) (l : List α) (n : Nat)
    (h : l.any fc = false) : (l.take n).any fc = false := by
  rw [List.any_eq_false] at *
  intro x hx
  exact h x (List.take_subset n l hx)

theorem any_drop_false (fc : α → Bool) (l : List α) (n : Nat)
    (h : l.any fc = false) : (l.drop n).any fc = false := by
  rw [List.any_eq_false] at *
  intro x hx
  exact h x (List.drop_subset n l hx)

theorem assignLoop_ok (fc : α → Bool) :
    ∀ (n : Nat) (dst src : List (Option α)),
      (src.take n).any (slotThrows fc) = false →
      n ≤ dst.length → n ≤ src.length →
      assignLoop fc dst src n = (src.take n ++ dst.drop n, false) := by
  intro n
  induction n with
  | zero =>
    intro dst src h1 h2 h3
    simp [assignLoop]
  | succ m ih =>
    intro dst src h1 h2 h3
    cases dst with
    | nil => simp at h2
    | cons d ds =>
      cases src with
      | nil => simp at h3
      | cons x ss =>
        simp only [List.take_succ_cons, List.any_cons, Bool.or_eq_false_iff] at h1
        have hrec := ih ds ss h1.2 (by simpa using h2) (by simpa using h3)
        cases x with
        | none =>
          simp only [assignLoop, hrec]
          simp
        | some a =>
          have hfa : fc a = false := h1.1
          simp only [assignLoop, hfa, hrec]
          simp

theorem elems_canon0 (l : List α) :
    Vector.elems ⟨⟨l.map some⟩, l.length⟩ = l := by
  have hz : l.map some ++ List.replicate 0 (none : Option α) = l.map some := by simp
  rw [show (⟨⟨l.map some⟩, l.length⟩ : Vector α) =
      ⟨⟨l.map some ++ List.replicate 0 none⟩, l.length⟩ by rw [hz]]
  exact elems_canon l 0

theorem wf_canon (l : List α) (k n : Nat) (h : n = l.length) :
    (⟨⟨l.map some ++ List.replicate k none⟩, n⟩ : Vector α).WF := ⟨l, k, rfl, h⟩

theorem wf_canon0 (l : List α) : (⟨⟨l.map some⟩, l.length⟩ : Vector α).WF := by
  have hz : l.map some ++ List.replicate 0 (none : Option α) = l.map some := by simp
  rw [show (⟨⟨l.map some⟩, l.length⟩ : Vector α) =
      ⟨⟨l.map some ++ List.replicate 0 none⟩, l.length⟩ by rw [hz]]
  exact wf_canon l 0 _ rfl

/-- C2: the reallocating Insert of the source SWALLOWS element-construction
failures instead of propagating them.  Concrete run: the full vector [7]
(size = capacity = 1), Insert of the value 3 at position 0, where copying the
existing element 7 throws during the suffix relocation.  The call returns
normally (`.ok`, no error escapes) with size 2, returned iterator index 0,
and a block in which NO slot is constructed: the prior content (the element
7) has been destroyed and the failure was silently discarded, while the
claim requires the failure to propagate with the prior content unchanged. -/
theorem c2_insert_swallows_failure :
    Vector.insertReallocF (fun y => y == 7) (⟨⟨[some 7]⟩, 1⟩ : Vector Nat) 0 3 =
      .ok (⟨⟨[none, none]⟩, 2⟩, 0) ∧
    (⟨⟨[none, none]⟩, 2⟩ : Vector Nat).elems = [] ∧
    (⟨⟨[some 7]⟩, 1⟩ : Vector Nat).elems = [7] :=
  ⟨rfl, rfl, rfl⟩

/-- C9: copy assignment.  When the source's size exceeds the target's
capacity, a full temporary copy is built and swapped in, and if that copy
throws the target is returned exactly as it was.  Otherwise the target's
storage is reused without reallocation (capacity unchanged): the overlapping
prefix is copy-assigned, surplus trailing elements are destroyed when the
source is smaller, extra trailing elements are copy-constructed when it is
larger; on success the target holds exactly the source's elements. -/
theorem c9_copyAssign (t s : Vector α) (fc : α → Bool) (ht : t.WF) (hs : s.WF) :
    (s.size_ > t.Capacity → s.elems.any fc = true →
      Vector.copyAssignF fc t s = (t, true)) ∧
    (s.size_ > t.Capacity → s.elems.any fc = false →
      (Vector.copyAssignF fc t s).2 = false ∧
      (Vector.copyAssignF fc t s).1.elems = s.elems ∧
      (Vector.copyAssignF fc t s).1.size_ = s.size_ ∧
      (Vector.copyAssignF fc t s).1.Capacity = s.size_ ∧
      (Vector.copyAssignF fc t s).1.WF) ∧
    (s.size_ ≤ t.Capacity → s.elems.any fc = false →
      (Vector.copyAssignF fc t s).2 = false ∧
      (Vector.copyAssignF fc t s).1.elems = s.elems ∧
      (Vector.copyAssignF fc t s).1.size_ = s.size_ ∧
      (Vector.copyAssignF fc t s).1.Capacity = t.Capacity ∧
      (Vector.copyAssignF fc t s).1.WF) := by
  obtain ⟨⟨st⟩, nt⟩ := t
  obtain ⟨lt, kt, hst, hnt⟩ := ht
  simp only at hst hnt
  subst hst
  subst hnt
  obtain ⟨⟨sw⟩, ns⟩ := s
  obtain ⟨ls, ks, hss, hns⟩ := hs
  simp only at hss hns
  subst hss
  subst hns
  rw [elems_canon]
  have hTcap := capacity_canon (α := α) lt kt
  refine ⟨?_, ?_, ?_⟩
  · intro hgt hany
    have hcond : (((ls.map some ++ List.replicate ks none).drop 0).take
        ls.length).any (slotThrows fc) = true := by
      rw [List.drop_zero, take_len_append (ls.map some) _ _ (by simp),
        any_slotThrows_map]
      exact hany
    have hcc : Vector.copyCtorF fc (⟨⟨ls.map some ++ List.replicate ks none⟩,
        ls.length⟩ : Vector α) = .error () := by
      unfold Vector.copyCtorF uninitializedCopyF
      simp only []
      rw [if_pos hcond]
    unfold Vector.copyAssignF
    rw [if_pos hgt, hcc]
  · intro hgt hany
    have hcond : (((ls.map some ++ List.replicate ks none).drop 0).take
        ls.length).any (slotThrows fc) = false := by
      rw [List.drop_zero, take_len_append (ls.map some) _ _ (by simp),
        any_slotThrows_map]
      exact hany
    have hcc : Vector.copyCtorF fc (⟨⟨ls.map some ++ List.replicate ks none⟩,
        ls.length⟩ : Vector α) = .ok ⟨⟨ls.map some⟩, ls.length⟩ := by
      unfold Vector.copyCtorF uninitializedCopyF
      simp only []
      rw [if_neg (by rw [hcond]; exact Bool.false_ne_true)]
      have hslots : copySlots (ls.map some ++ List.replicate ks none) 0 ls.length
          (RawMemory.allocate α ls.length).slots 0 = ls.map some := by
        rw [copySlots]
        simp only [RawMemory.allocate, List.take_zero, List.drop_zero,
          List.nil_append, Nat.zero_add, List.drop_replicate, Nat.sub_self,
          List.replicate_zero, List.append_nil]
        exact take_len_append (ls.map some) _ _ (by simp)
      rw [hslots]
    unfold Vector.copyAssignF
    rw [if_pos hgt, hcc]
    refine ⟨rfl, ?_, rfl, ?_, wf_canon0 ls⟩
    · exact elems_canon0 ls
    · simp [Vector.Capacity, RawMemory.capacity]
  · intro hle hany
    have hle2 : ls.length ≤ lt.length + kt := by
      rw [hTcap] at hle
      exact hle
    rcases Nat.lt_or_ge ls.length lt.length with hlts | hges
    · have hcond2 : ((ls.map some ++ List.replicate ks none).take ls.length).any
          (slotThrows fc) = false := by
        rw [take_len_append (ls.map some) _ _ (by simp), any_slotThrows_map]
        exact hany
      have hal := assignLoop_ok fc ls.length
        (lt.map some ++ List.replicate kt none)
        (ls.map some ++ List.replicate ks none) hcond2
        (by simp only [List.length_append, List.length_map,
          List.length_replicate]; omega)
        (by simp only [List.length_append, List.length_map,
          List.length_replicate]; omega)
      have hA : (ls.map some ++ List.replicate ks none).take ls.length =
          ls.map some := take_len_append _ _ _ (by simp)
      have hB : (lt.map some ++ List.replicate kt none).drop ls.length =
          (lt.drop ls.length).map some ++ List.replicate kt none := by
        rw [List.drop_append_eq_append_drop,
          show ls.length - (lt.map some).length = 0 by
            simp only [List.length_map]; omega,
          List.drop_zero, List.map_drop]
      have hfill : fillSlots (ls.map some ++ ((lt.drop ls.length).map some ++
          List.replicate kt none)) ls.length (lt.length - ls.length) none =
          ls.map some ++ List.replicate (lt.length - ls.length + kt) none := by
        rw [fillSlots]
        rw [take_len_append _ _ _ (by simp)]
        rw [show ls.length + (lt.length - ls.length) = lt.length by omega]
        rw [show ls.map some ++ ((lt.drop ls.length).map some ++
            List.replicate kt none) =
            (ls.map some ++ (lt.drop ls.length).map some) ++
              List.replicate kt none by simp]
        rw [drop_len_append _ _ _ (by
          simp only [List.length_append, List.length_map, List.length_drop]
          omega)]
        rw [List.append_assoc, List.append_replicate_replicate]
      have heq : Vector.copyAssignF fc
          (⟨⟨lt.map some ++ List.replicate kt none⟩, lt.length⟩ : Vector α)
          (⟨⟨ls.map some ++ List.replicate ks none⟩, ls.length⟩ : Vector α) =
          (⟨⟨ls.map some ++ List.replicate (lt.length - ls.length + kt) none⟩,
            ls.length⟩, false) := by
        unfold Vector.copyAssignF
        rw [if_neg (by rw [hTcap]; show ¬(ls.length > lt.length + kt); omega)]
        rw [if_pos (show (ls.length : Nat) < lt.length from hlts)]
        rw [hal]
        simp only []
        rw [hA, hB, hfill]
      rw [heq]
      refine ⟨rfl, ?_, rfl, ?_, wf_canon _ _ _ rfl⟩
      · exact elems_canon' _ _ _ rfl
      · rw [capacity_canon' _ _ _ rfl, hTcap]
        omega
    · have hA2 : (ls.map some ++ List.replicate ks none).take lt.length =
          (ls.take lt.length).map some := by
        rw [List.take_append_eq_append_take,
          show lt.length - (ls.map some).length = 0 by
            simp only [List.length_map]; omega,
          List.take_zero, List.append_nil, List.map_take]
      have hcond2 : ((ls.map some ++ List.replicate ks none).take lt.length).any
          (slotThrows fc) = false := by
        rw [hA2, any_slotThrows_map]
        exact any_take_false fc ls lt.length hany
      have hal := assignLoop_ok fc lt.length
        (lt.map some ++ List.replicate kt none)
        (ls.map some ++ List.replicate ks none) hcond2
        (by simp only [List.length_append, List.length_map,
          List.length_replicate]; omega)
        (by simp only [List.length_append, List.length_map,
          List.length_replicate]; omega)
      have hB2 : (lt.map some ++ List.replicate kt none).drop lt.length =
          List.replicate kt none :=
        drop_len_append _ _ _ (by simp)
      have hseg : ((ls.map some ++ List.replicate ks none).drop lt.length).take
          (ls.length - lt.length) = (ls.drop lt.length).map some := by
        rw [List.drop_append_eq_append_drop,
          show lt.length - (ls.map some).length = 0 by
            simp only [List.length_map]; omega,
          List.drop_zero, List.take_append_eq_append_take,
          List.take_of_length_le (by
            simp only [List.length_drop, List.length_map]
            omega),
          show ls.length - lt.length - ((ls.map some).drop lt.length).length = 0 by
            simp only [List.length_drop, List.length_map]; omega,
          List.take_zero, List.append_nil, List.map_drop]
      have hcond3 : (((ls.map some ++ List.replicate ks none).drop lt.length).take
          (ls.length - lt.length)).any (slotThrows fc) = false := by
        rw [hseg, any_slotThrows_map]
        exact any_drop_false fc ls lt.length hany
      have hcopy : uninitializedCopyF fc (ls.map some ++ List.replicate ks none)
          lt.length (ls.length - lt.length)
          ((ls.take lt.length).map some ++ List.replicate kt none) lt.length =
          .ok (ls.map some ++
            List.replicate (kt - (ls.length - lt.length)) none) := by
        unfold uninitializedCopyF
        rw [if_neg (by rw [hcond3]; exact Bool.false_ne_true)]
        congr 1
        rw [copySlots, hseg]
        have ht1 : ((ls.take lt.length).map some ++ List.replicate kt none).take
            lt.length = (ls.take lt.length).map some :=
          take_len_append _ _ _ (by
            simp only [List.length_map, List.length_take]
            omega)
        rw [ht1, show lt.length + (ls.length - lt.length) = ls.length by omega]
        have ht2 : ((ls.take lt.length).map some ++ List.replicate kt none).drop
            ls.length = List.replicate (kt - (ls.length - lt.length)) none := by
          rw [List.drop_append_eq_append_drop]
          have hnull : ((ls.take lt.length).map some).drop ls.length = [] :=
            List.drop_of_length_le (by
              simp only [List.length_map, List.length_take]
              omega)
          rw [hnull, List.nil_append, List.drop_replicate,
            show ls.length - ((ls.take lt.length).map some).length =
                ls.length - lt.length by
              simp only [List.length_map, List.length_take]; omega]
        rw [ht2]
        rw [← List.map_append, List.take_append_drop]
      have heq : Vector.copyAssignF fc
          (⟨⟨lt.map some ++ List.replicate kt none⟩, lt.length⟩ : Vector α)
          (⟨⟨ls.map some ++ List.replicate ks none⟩, ls.length⟩ : Vector α) =
          (⟨⟨ls.map some ++
            List.replicate (kt - (ls.length - lt.length)) none⟩,
            ls.length⟩, false) := by
        unfold Vector.copyAssignF
        rw [if_neg (by rw [hTcap]; show ¬(ls.length > lt.length + kt); omega)]
        rw [if_neg (show ¬((ls.length : Nat) < lt.length) by omega)]
        rw [hal]
        simp only []
        rw [hA2, hB2, hcopy]
      rw [heq]
      refine ⟨rfl, ?_, rfl, ?_, wf_canon _ _ _ rfl⟩
      · exact elems_canon' _ _ _ rfl
      · rw [capacity_canon' _ _ _ rfl, hTcap]
        omega

/-- C9 witness: copying [4, 5] into the target [1] of capacity 3 (reuse
path): no error, the target becomes [4, 5], capacity stays 3. -/
theorem c9_copyAssign_witness :
    (Vector.copyAssignF (fun _ => false)
        (⟨⟨[some 1, none, none]⟩, 1⟩ : Vector Nat) ⟨⟨[some 4, some 5]⟩, 2⟩).2 =
      false ∧
    (Vector.copyAssignF (fun _ => false)
        (⟨⟨[some 1, none, none]⟩, 1⟩ : Vector Nat)
        ⟨⟨[some 4, some 5]⟩, 2⟩).1.elems = [4, 5] ∧
    (Vector.copyAssignF (fun _ => false)
        (⟨⟨[some 1, none, none]⟩, 1⟩ : Vector Nat)
        ⟨⟨[some 4, some 5]⟩, 2⟩).1.Capacity = 3 := by
  have h := c9_copyAssign (⟨⟨[some 1, none, none]⟩, 1⟩ : Vector Nat)
    (⟨⟨[some 4, some 5]⟩, 2⟩ : Vector Nat) (fun _ => false)
    ⟨[1], 2, rfl, rfl⟩ ⟨[4, 5], 0, rfl, rfl⟩
  have hc := h.2.2 (by decide) (by decide)
  refine ⟨hc.1, ?_, ?_⟩
  · rw [hc.2.1]
    decide
  · rw [hc.2.2.2.1]
    decide

/-- C10: self copy-assignment `v = v` (the source has no self-assignment
check) leaves the vector exactly unchanged — same size, same elements, same
capacity — and no exception escapes, for every well-formed vector. -/
theorem c10_selfAssign (v : Vector α) (h : v.WF) :
    Vector.copyAssignF (fun _ => false) v v = (v, false) := by
  obtain ⟨⟨sv⟩, n⟩ := v
  obtain ⟨l, k, hs, hn⟩ := h
  simp only at hs hn
  subst hs
  subst hn
  unfold Vector.copyAssignF
  rw [if_neg (by
    rw [capacity_canon]
    show ¬(l.length > l.length + k)
    omega)]
  rw [if_neg (show ¬((l.length : Nat) < l.length) by omega)]
  have hcond : ((l.map some ++ List.replicate k none).take l.length).any
      (slotThrows (fun _ => false)) = false := by
    rw [take_len_append (l.map some) _ _ (by simp), any_slotThrows_map]
    simp
  have hlen : l.length ≤ (l.map some ++ List.replicate k none).length := by
    simp only [List.length_append, List.length_map, List.length_replicate]
    omega
  have hal := assignLoop_ok (fun _ => false) l.length
    (l.map some ++ List.replicate k none) (l.map some ++ List.replicate k none)
    hcond hlen hlen
  rw [hal, List.take_append_drop]
  simp only []
  rw [Nat.sub_self]
  have hcopy : uninitializedCopyF (fun _ => false)
      (l.map some ++ List.replicate k none) l.length 0
      (l.map some ++ List.replicate k none) l.length =
      .ok (l.map some ++ List.replicate k none) := by
    unfold uninitializedCopyF
    rw [List.take_zero, List.any_nil, if_neg Bool.false_ne_true]
    congr 1
    rw [copySlots, List.take_zero]
    simp
  rw [hcopy]

/-- C10 witness: self-assigning the vector [1, 2] with capacity 3 returns it
unchanged with no exception. -/
theorem c10_selfAssign_witness :
    Vector.copyAssignF (fun _ => false)
      (⟨⟨[some 1, some 2, none]⟩, 2⟩ : Vector Nat) ⟨⟨[some 1, some 2, none]⟩, 2⟩ =
      (⟨⟨[some 1, some 2, none]⟩, 2⟩, false) :=
  c10_selfAssign (⟨⟨[some 1, some 2, none]⟩, 2⟩ : Vector Nat) ⟨[1, 2], 1, rfl, rfl⟩


end VectorSpec
